import Mathlib

/-!
Verification of the silence-based segmentation engine of `processing/segmenter.py`.

Times from the pydub backend are integer milliseconds (modelled as `Int`);
times from the ffmpeg backend are fractional seconds (Python floats, modelled
as `ℚ` — the code only compares, adds and subtracts them, which is exact).
SQLite state is modelled as an explicit list of segment rows, and the
statements executed inside one transaction as an explicit operation list
that becomes visible atomically at commit.
-/

namespace Seg

/-- Acceptable segment-count deviation to stop the parameter search early
(`_ACCEPTABLE_DIFF` in the source). -/
def ACCEPTABLE_DIFF : Nat := 2

/-- Padding in milliseconds kept around each segment (`_KEEP_SILENCE_MS`). -/
def KEEP_SILENCE_MS : Int := 100

/-- The pydub parameter grid `_PARAM_GRID`, pairs `(min_silence_len, silence_thresh)`,
built by `for th in [-45, -40, -35, -30] for ms in [300, 200, 150]` — the
threshold varies in the outer loop, so the listing below is that exact order. -/
def PARAM_GRID : List (Nat × Int) :=
  [(300, -45), (200, -45), (150, -45),
   (300, -40), (200, -40), (150, -40),
   (300, -35), (200, -35), (150, -35),
   (300, -30), (200, -30), (150, -30)]

/-- The ffmpeg parameter grid `_FFMPEG_PARAM_GRID`, pairs
`(min_silence_len_s, silence_thresh_db)` with `min_silence_len_s = ms / 1000.0`,
same loop order as `PARAM_GRID`. -/
def FFMPEG_PARAM_GRID : List (ℚ × Int) :=
  [(300/1000, -45), (200/1000, -45), (150/1000, -45),
   (300/1000, -40), (200/1000, -40), (150/1000, -40),
   (300/1000, -35), (200/1000, -35), (150/1000, -35),
   (300/1000, -30), (200/1000, -30), (150/1000, -30)]

/-- `diff = abs(len(regions) - target_count)` as computed in both adaptive
search loops. -/
def countDiff {α : Type} (target : Nat) (regions : List α) : Nat :=
  ((regions.length : Int) - (target : Int)).natAbs

/-- The comparison `diff < best_diff` of the search loops, where `best_diff`
starts as `float("inf")` — modelled by `none`, which every `Nat` is below. -/
def better (d : Nat) : Option Nat → Bool
  | none => true
  | some b => decide (d < b)

/-- The shared body of the `for params in GRID` loops of
`_pydub_adaptive_split` and `_ffmpeg_adaptive_detect`: the incoming list is
the stream of detector results, one per grid entry in grid order; the state
is `(best_regions, best_diff)`.  Each step computes `diff`, replaces the
best when `diff < best_diff` (strictly), and breaks when
`diff <= _ACCEPTABLE_DIFF`. -/
def adaptiveGo {α : Type} (target : Nat) (best : List α) (bestDiff : Option Nat) :
    List (List α) → List α × Option Nat
  | [] => (best, bestDiff)
  | regions :: rest =>
    if countDiff target regions ≤ ACCEPTABLE_DIFF then
      (if better (countDiff target regions) bestDiff then regions else best,
       if better (countDiff target regions) bestDiff then some (countDiff target regions)
         else bestDiff)
    else
      adaptiveGo target
        (if better (countDiff target regions) bestDiff then regions else best)
        (if better (countDiff target regions) bestDiff then some (countDiff target regions)
          else bestDiff)
        rest

/-- The whole adaptive search, starting from `best_regions = []`,
`best_diff = inf`, returning the final `best_regions`. -/
def adaptiveDetect {α : Type} (target : Nat) (results : List (List α)) : List α :=
  (adaptiveGo target [] none results).1

/-- The prefix of the result stream the search actually examines: everything
up to and including the first entry whose diff is within tolerance. -/
def stopAndTake {α : Type} (target : Nat) : List (List α) → List (List α)
  | [] => []
  | regions :: rest =>
    if countDiff target regions ≤ ACCEPTABLE_DIFF then [regions]
    else regions :: stopAndTake target rest

/-- Keep the earlier result unless the later one has strictly smaller diff
(first-seen wins ties). -/
def pickMin {α : Type} (target : Nat) (b r : List α) : List α :=
  if countDiff target r < countDiff target b then r else b

/-- First-seen minimal-diff result of a nonempty list of detector results. -/
def firstArgmin {α : Type} (target : Nat) : List (List α) → List α
  | [] => []
  | r :: rest => rest.foldl (pickMin target) r

/-- `_ffmpeg_adaptive_detect`, with the detector abstracted as a function
from a grid parameter pair to the region list it yields on the fixed input
file. -/
def ffmpegAdaptiveDetect (d : ℚ × Int → List (ℚ × ℚ)) (target : Nat) : List (ℚ × ℚ) :=
  adaptiveDetect target (FFMPEG_PARAM_GRID.map d)

/-- Region padding of `_pydub_adaptive_split`:
`padded_start = max(0, start_ms - keep)`, `padded_end = min(len(audio), end_ms + keep)`. -/
def pydubPad (audioLen : Int) (r : Int × Int) : Int × Int :=
  (max 0 (r.1 - KEEP_SILENCE_MS), min audioLen (r.2 + KEEP_SILENCE_MS))

/-- The search stage of `_pydub_adaptive_split` (the detector abstracted as a
function of the parameter pair), followed by the padding loop; the returned
list is the `padded_regions` component (each audio chunk is exactly the slice
at its padded region, so the regions determine the chunks). -/
def pydubAdaptiveSplit (d : Nat × Int → List (Int × Int)) (audioLen : Int)
    (target : Nat) : List (Int × Int) :=
  (adaptiveDetect target (PARAM_GRID.map d)).map (pydubPad audioLen)

/-- `keep_s = _KEEP_SILENCE_MS / 1000.0` in `_segment_with_ffmpeg`. -/
def keepS : ℚ := (KEEP_SILENCE_MS : ℚ) / 1000

/-- The inline padding of `_segment_with_ffmpeg`:
`padded_start = max(0.0, start_s - keep_s)`, `padded_end = end_s + keep_s`
(no upper cap — the source file is only addressed by time there). -/
def ffmpegPad (r : ℚ × ℚ) : ℚ × ℚ :=
  (max 0 (r.1 - keepS), r.2 + keepS)

/-- Python `int()` on a nonnegative-or-negative rational: truncation toward
zero, as applied to `padded_start * 1000` / `padded_end * 1000`. -/
def pyInt (q : ℚ) : Int :=
  if q < 0 then -Int.floor (-q) else Int.floor q

/-- Zero-padding used by the Python format spec `03d`. -/
def padZeros (w : Nat) (s : String) : String :=
  if s.length < w then String.mk (List.replicate (w - s.length) '0') ++ s else s

/-- Python `f"{n:03d}"`: minimum width 3 including the sign. -/
def pyFormat3 (n : Int) : String :=
  if n < 0 then "-" ++ padZeros 2 (toString n.natAbs) else padZeros 3 (toString n.natAbs)

/-- `seg_name = f"{audio_filename}_{entry_num:03d}.wav"`. -/
def segName (audio_filename : String) (entry_num : Int) : String :=
  audio_filename ++ "_" ++ pyFormat3 entry_num ++ ".wav"

/-- One row of the `entries` table, as read by the worker
(`SELECT * FROM entries WHERE recording_id=? ORDER BY entry_number`). -/
structure Entry where
  id : Nat
  entry_number : Option Int
  deriving Repr, DecidableEq

/-- One row of the `segments` table as inserted by the worker. -/
structure SegmentRow where
  entry_id : Nat
  recording_id : Nat
  segment_file : String
  start_ms : Int
  end_ms : Int
  deriving Repr, DecidableEq

/-- A SQL statement executed on the worker connection inside the
per-recording transaction. -/
inductive DbOp where
  | deleteSegments (recording_id : Nat)
  | insertSegment (row : SegmentRow)
  deriving Repr, DecidableEq

/-- Effect of one statement on the `segments` table. -/
def applyOp (store : List SegmentRow) : DbOp → List SegmentRow
  | DbOp.deleteSegments rid => store.filter (fun t => t.recording_id != rid)
  | DbOp.insertSegment row => store ++ [row]

/-- Effect of a statement list, in order. -/
def applyOps (store : List SegmentRow) (ops : List DbOp) : List SegmentRow :=
  ops.foldl applyOp store

/-- SQLite transaction visibility: the statements of one transaction become
visible atomically at `conn.commit()`; an interrupted run that never commits
leaves the prior table contents visible. -/
def txnVisible (store : List SegmentRow) (ops : List DbOp) (committed : Bool) :
    List SegmentRow :=
  if committed then applyOps store ops else store

/-- The segment row built by one iteration of the pydub persistence loop:
entry number falls back to `i + 1` when the stored ordinal is NULL; the
start/end are the (already padded) region bounds in milliseconds. -/
def mkPydubRow (rid : Nat) (fname segDir : String) (i : Nat) (e : Entry)
    (r : Int × Int) : SegmentRow :=
  { entry_id := e.id, recording_id := rid,
    segment_file := segDir ++ "/" ++ segName fname (e.entry_number.getD ((i : Int) + 1)),
    start_ms := r.1, end_ms := r.2 }

/-- The insert loop of `_segment_with_pydub`: iterate `zip(chunks, regions)`
with index `i`, break once `i >= n_entries` — i.e. consume the region and
entry lists in lockstep. -/
def pydubRows (rid : Nat) (fname segDir : String) :
    Nat → List Entry → List (Int × Int) → List SegmentRow
  | _, [], _ => []
  | _, _ :: _, [] => []
  | i, e :: es, r :: rs => mkPydubRow rid fname segDir i e r :: pydubRows rid fname segDir (i + 1) es rs

/-- `_segment_with_pydub` after a successful load and adaptive split, taking
the padded regions the split returned: on an empty region list it returns 0
without touching the store; otherwise it deletes the prior segment rows of
the recording, inserts one row per region-entry pair and commits once.
Result: `(created, statements of the single transaction)`. -/
def segmentWithPydub (rid : Nat) (fname segDir : String) (entries : List Entry)
    (regions : List (Int × Int)) : Int × List DbOp :=
  if regions.isEmpty then (0, [])
  else
    let rows := pydubRows rid fname segDir 0 entries regions
    ((rows.length : Int), DbOp.deleteSegments rid :: rows.map DbOp.insertSegment)

/-- The segment row built by one iteration of the ffmpeg extraction loop:
padding applied inline, millisecond timestamps via `int(x * 1000)`. -/
def mkFfmpegRow (rid : Nat) (fname segDir : String) (i : Nat) (e : Entry)
    (r : ℚ × ℚ) : SegmentRow :=
  { entry_id := e.id, recording_id := rid,
    segment_file := segDir ++ "/" ++ segName fname (e.entry_number.getD ((i : Int) + 1)),
    start_ms := pyInt ((ffmpegPad r).1 * 1000), end_ms := pyInt ((ffmpegPad r).2 * 1000) }

/-- The extraction loop of `_segment_with_ffmpeg`: iterate the regions with
index `i`, break once `i >= n_entries`; `ok i` tells whether the extraction
subprocess for region `i` exited with status 0 — on failure the row is
skipped (`continue`) and the loop moves on. -/
def ffmpegRows (rid : Nat) (fname segDir : String) (ok : Nat → Bool) :
    Nat → List Entry → List (ℚ × ℚ) → List SegmentRow
  | _, [], _ => []
  | _, _ :: _, [] => []
  | i, e :: es, r :: rs =>
    if ok i then mkFfmpegRow rid fname segDir i e r :: ffmpegRows rid fname segDir ok (i + 1) es rs
    else ffmpegRows rid fname segDir ok (i + 1) es rs

/-- `_segment_with_ffmpeg` after a successful adaptive detection: on an empty
region list it returns 0 without touching the store; otherwise it deletes the
prior rows, runs the extraction loop and commits once. -/
def segmentWithFfmpeg (rid : Nat) (fname segDir : String) (ok : Nat → Bool)
    (entries : List Entry) (regions : List (ℚ × ℚ)) : Int × List DbOp :=
  if regions.isEmpty then (0, [])
  else
    let rows := ffmpegRows rid fname segDir ok 0 entries regions
    ((rows.length : Int), DbOp.deleteSegments rid :: rows.map DbOp.insertSegment)

/-- `_segment_recording_worker` control flow around the backends: no entries
means zero segments and no store access; a missing source waveform means the
sentinel -1 and no store access; otherwise the chosen backend runs (its
outcome abstracted as `backend`). -/
def segmentRecordingWorker (entries : List Entry) (wavExists : Bool)
    (backend : Int × List DbOp) : Int × List DbOp :=
  if entries.isEmpty then (0, [])
  else if !wavExists then (-1, [])
  else backend

/-- One row of the `recordings` table, with the fields the entry points read. -/
structure Recording where
  id : Nat
  recording_type : String
  downloaded : Bool
  language_code : String
  deriving Repr, DecidableEq

/-- `SELECT * FROM recordings WHERE id=?`. -/
def findRecording (recs : List Recording) (rid : Nat) : Option Recording :=
  recs.find? (fun r => r.id == rid)

/-- `segment_recording`: -1 when the recording id is unknown, 0 (and no
work) when the recording is not a word-list, otherwise the worker outcome. -/
def segment_recording (recs : List Recording) (rid : Nat)
    (worker : Int × List DbOp) : Int × List DbOp :=
  match findRecording recs rid with
  | none => (-1, [])
  | some rec => if rec.recording_type ≠ "word-list" then (0, []) else worker

/-- The region-building loop of `_ffmpeg_detect_nonsilent`:
`for i, ss in enumerate(silence_starts)` appends `(prev_end, ss)` when
`ss > prev_end`, then sets `prev_end = silence_ends[i]` when `i` is still in
range — the sequential indexed read of `silence_ends` is modelled by
consuming the end list in lockstep.  Returns the region list and the final
`prev_end`. -/
def silenceGapsL : List ℚ → List ℚ → ℚ → List (ℚ × ℚ) × ℚ
  | [], _, prev => ([], prev)
  | ss :: rest, es, prev =>
    match es with
    | [] =>
      let t := silenceGapsL rest [] prev
      ((if prev < ss then [(prev, ss)] else []) ++ t.1, t.2)
    | e :: es2 =>
      let t := silenceGapsL rest es2 e
      ((if prev < ss then [(prev, ss)] else []) ++ t.1, t.2)

/-- `_ffmpeg_detect_nonsilent` after parsing: build the non-silent regions
from the parsed silence starts/ends and the parsed total duration
(`duration = 0.0` when no Duration line matched).  The loop runs with
`prev_end = 0.0`; then a trailing region `(prev_end, duration)` is appended
when `duration > 0 and prev_end < duration`, and otherwise, when no silence
start was seen at all and the duration is known, the whole file is one
region. -/
def ffmpegDetectNonsilent (starts ends : List ℚ) (duration : ℚ) : List (ℚ × ℚ) :=
  let g := silenceGapsL starts ends 0
  if 0 < duration ∧ g.2 < duration then g.1 ++ [(g.2, duration)]
  else if starts = [] ∧ 0 < duration then g.1 ++ [(0, duration)]
  else g.1

/-- One region per positive gap between a silence end and the next silence
start (the claim wording for the middle regions). -/
def gapsBetween : List ℚ → List ℚ → List (ℚ × ℚ)
  | e :: es, s :: ss => (if e < s then [(e, s)] else []) ++ gapsBetween es ss
  | _, _ => []

/-- The claim wording for the detector output, stated independently of the
loop: an initial region from 0 to the first silence start when that start is
positive, one region per gap between a silence end and the next silence
start, a trailing region from the last silence end to the declared duration
when that end is before the duration; with zero silence events, the single
region `(0, duration)` when the duration is known, else nothing. -/
def ffmpegRegionsSpecOf (starts ends : List ℚ) (duration : ℚ) : List (ℚ × ℚ) :=
  match starts with
  | [] => if 0 < duration then [(0, duration)] else []
  | s0 :: rest =>
    (if 0 < s0 then [(0, s0)] else []) ++ gapsBetween ends rest ++
    (if ends.isEmpty then []
     else if ends.getLastD 0 < duration then [(ends.getLastD 0, duration)] else [])

/-- `SELECT COUNT(*) FROM segments WHERE recording_id=?`. -/
def segCount (store : List SegmentRow) (rid : Nat) : Nat :=
  (store.filter (fun t => t.recording_id == rid)).length

/-- The candidate query of `segment_all`:
`recording_type='word-list' AND downloaded=1`, plus the optional language
filter (the caller-supplied code is compared after the source uppercases it;
the model takes the uppercased value as given). -/
def candidates (recs : List Recording) (lang : Option String) : List Recording :=
  recs.filter (fun r =>
    r.recording_type == "word-list" && r.downloaded &&
      (match lang with
       | none => true
       | some lc => r.language_code == lc))

/-- The `to_process` list of `segment_all`: without `force`, candidates that
already have at least one persisted segment are excluded. -/
def toProcess (recs : List Recording) (lang : Option String)
    (store : List SegmentRow) (force : Bool) : List Recording :=
  if force then candidates recs lang
  else (candidates recs lang).filter (fun r => segCount store r.id == 0)

/-- The candidates skipped by `segment_all` (those whose existing count is
accumulated into `skipped_total`). -/
def skippedRecs (recs : List Recording) (lang : Option String)
    (store : List SegmentRow) (force : Bool) : List Recording :=
  if force then []
  else (candidates recs lang).filter (fun r => !(segCount store r.id == 0))

/-- `skipped_total`: the sum of the existing segment counts of the skipped
recordings. -/
def skippedTotal (recs : List Recording) (lang : Option String)
    (store : List SegmentRow) (force : Bool) : Int :=
  ((skippedRecs recs lang store force).map (fun r => (segCount store r.id : Int))).sum

/-- The per-recording worker outcome, abstracted as an oracle on the
recording id (the worker is a deterministic function of the recording and
the filesystem, which are fixed during a run): `none` models the failure
paths (created = -1, no store writes — the failure returns happen before any
statement touches `segments`); `some []` models the zero outcomes (no
entries, or no regions detected: the early `return 0` happens before the
DELETE); `some rows` (nonempty) models a run that reaches persistence and
commits exactly `rows`, reporting `created = rows.length`. -/
def workerCreated (w : Nat → Option (List SegmentRow)) (rid : Nat) : Int :=
  match w rid with
  | none => -1
  | some rows => (rows.length : Int)

/-- The committed store effect of one worker, per `workerCreated`. -/
def workerApply (w : Nat → Option (List SegmentRow)) (rid : Nat)
    (store : List SegmentRow) : List SegmentRow :=
  match w rid with
  | none => store
  | some [] => store
  | some rows => store.filter (fun t => t.recording_id != rid) ++ rows

/-- The segments a worker leaves for its recording when it started from an
empty segment set: nothing on failure or zero outcome, its inserted rows
otherwise. -/
def createdNat (w : Nat → Option (List SegmentRow)) (rid : Nat) : Nat :=
  match w rid with
  | none => 0
  | some rows => rows.length

/-- The rows visible for `rid` after a worker ran, given the rows `dflt`
that were visible before. -/
def workerRowsOr (w : Nat → Option (List SegmentRow)) (rid : Nat)
    (dflt : List SegmentRow) : List SegmentRow :=
  match w rid with
  | none => dflt
  | some [] => dflt
  | some rows => rows

/-- The aggregation loop of `segment_all`: only strictly positive created
counts are added to `total_new` (failures report -1 and add nothing, zero
outcomes add zero).  The pool yields results in completion order; the sum is
order-independent, so the submission order is used. -/
def runWorkersTotal (w : Nat → Option (List SegmentRow))
    (procs : List Recording) : Int :=
  (procs.map (fun r =>
    if workerCreated w r.id > 0 then workerCreated w r.id else 0)).sum

/-- The store after every dispatched worker has committed.  Workers of
distinct recordings write disjoint row sets, so the fold order is
immaterial; the submission order is used. -/
def runWorkersStore (w : Nat → Option (List SegmentRow))
    (procs : List Recording) (store : List SegmentRow) : List SegmentRow :=
  procs.foldl (fun st r => workerApply w r.id st) store

/-- `segment_all`: returns `skipped_total + total_new` and the final store. -/
def segmentAll (recs : List Recording) (lang : Option String)
    (store : List SegmentRow) (force : Bool)
    (w : Nat → Option (List SegmentRow)) : Int × List SegmentRow :=
  (skippedTotal recs lang store force + runWorkersTotal w (toProcess recs lang store force),
   runWorkersStore w (toProcess recs lang store force) store)

theorem adaptiveGo_fst {α : Type} (target : Nat) :
    ∀ (l : List (List α)) (b : List α),
      (adaptiveGo target b (some (countDiff target b)) l).1 =
        (stopAndTake target l).foldl (pickMin target) b := by
  intro l
  induction l with
  | nil => intro b; rfl
  | cons r rest ih =>
    intro b
    by_cases hstop : countDiff target r ≤ ACCEPTABLE_DIFF
    · by_cases hlt : countDiff target r < countDiff target b <;>
        simp [adaptiveGo, stopAndTake, better, pickMin, hstop, hlt]
    · by_cases hlt : countDiff target r < countDiff target b <;>
        simp [adaptiveGo, stopAndTake, better, pickMin, hstop, hlt, ih]

theorem adaptiveDetect_eq_firstArgmin {α : Type} (target : Nat)
    (results : List (List α)) :
    adaptiveDetect target results = firstArgmin target (stopAndTake target results) := by
  cases results with
  | nil => rfl
  | cons r rest =>
    by_cases hstop : countDiff target r ≤ ACCEPTABLE_DIFF
    · simp [adaptiveDetect, adaptiveGo, better, firstArgmin, stopAndTake, hstop]
    · have h1 : adaptiveDetect target (r :: rest) =
          (adaptiveGo target r (some (countDiff target r)) rest).1 := by
        simp [adaptiveDetect, adaptiveGo, better, hstop]
      rw [h1, adaptiveGo_fst]
      simp [stopAndTake, firstArgmin, hstop]

theorem foldl_pickMin_le {α : Type} (target : Nat) :
    ∀ (l : List (List α)) (b : List α),
      countDiff target (l.foldl (pickMin target) b) ≤ countDiff target b := by
  intro l
  induction l with
  | nil => intro b; simp
  | cons r rest ih =>
    intro b
    by_cases hlt : countDiff target r < countDiff target b
    · calc countDiff target ((r :: rest).foldl (pickMin target) b)
          ≤ countDiff target (pickMin target b r) := by simpa using ih (pickMin target b r)
        _ ≤ countDiff target b := by simp [pickMin, hlt]; omega
    · calc countDiff target ((r :: rest).foldl (pickMin target) b)
          ≤ countDiff target (pickMin target b r) := by simpa using ih (pickMin target b r)
        _ ≤ countDiff target b := by simp [pickMin, hlt]

/-- Claim C1: both adaptive searches iterate the grid in its fixed order,
keep the first-seen minimal-diff result (a later grid entry replaces the
best only when its diff is strictly smaller), stop at the first entry whose
diff is at most the tolerance 2 — i.e. the returned result is the
first-seen argmin of the examined prefix — and consequently the diff of the
returned result is never strictly worse than the diff of the first grid
entry, for the generic loop and for both concrete detectors (whose first
grid pair is `min_silence_len = 300`, `silence_thresh = -45`). -/
theorem claim_C1_adaptive_search :
    (∀ (α : Type) (target : Nat) (results : List (List α)),
        adaptiveDetect target results = firstArgmin target (stopAndTake target results)) ∧
    (∀ (α : Type) (target : Nat) (r0 : List α) (rest : List (List α)),
        countDiff target (adaptiveDetect target (r0 :: rest)) ≤ countDiff target r0) ∧
    (∀ (d : ℚ × Int → List (ℚ × ℚ)) (target : Nat),
        countDiff target (ffmpegAdaptiveDetect d target) ≤
          countDiff target (d (300/1000, -45))) ∧
    (∀ (d : Nat × Int → List (Int × Int)) (target : Nat),
        countDiff target (adaptiveDetect target (PARAM_GRID.map d)) ≤
          countDiff target (d (300, -45))) := by
  have key : ∀ (α : Type) (target : Nat) (r0 : List α) (rest : List (List α)),
      countDiff target (adaptiveDetect target (r0 :: rest)) ≤ countDiff target r0 := by
    intro α target r0 rest
    rw [adaptiveDetect_eq_firstArgmin]
    by_cases hstop : countDiff target r0 ≤ ACCEPTABLE_DIFF
    · simp [stopAndTake, firstArgmin, hstop]
    · simp only [stopAndTake, hstop, if_false, firstArgmin]
      exact foldl_pickMin_le target _ r0
  refine ⟨fun α target results => adaptiveDetect_eq_firstArgmin target results,
    key, ?_, ?_⟩
  · intro d target
    have hgrid : FFMPEG_PARAM_GRID.map d =
        d (300/1000, -45) :: (FFMPEG_PARAM_GRID.tail.map d) := rfl
    unfold ffmpegAdaptiveDetect
    rw [hgrid]
    exact key _ target _ _
  · intro d target
    have hgrid : PARAM_GRID.map d = d (300, -45) :: (PARAM_GRID.tail.map d) := rfl
    rw [hgrid]
    exact key _ target _ _

theorem claim_C1_witness :
    adaptiveDetect 5 [[0, 1, 2, 3], [0, 1, 2, 3, 4], [0]] =
      firstArgmin 5 (stopAndTake 5 [[0, 1, 2, 3], [0, 1, 2, 3, 4], [0]]) ∧
    countDiff 5 (adaptiveDetect 5 [[0, 1, 2, 3], [0, 1, 2, 3, 4], [0]]) ≤
      countDiff 5 [0, 1, 2, 3] := by
  exact ⟨claim_C1_adaptive_search.1 Nat 5 [[0, 1, 2, 3], [0, 1, 2, 3, 4], [0]],
    claim_C1_adaptive_search.2.1 Nat 5 [0, 1, 2, 3] [[0, 1, 2, 3, 4], [0]]⟩

theorem pydubRows_length (rid : Nat) (fname segDir : String) :
    ∀ (es : List Entry) (rs : List (Int × Int)) (i : Nat),
      (pydubRows rid fname segDir i es rs).length = min es.length rs.length := by
  intro es
  induction es with
  | nil => intro rs i; cases rs <;> simp [pydubRows]
  | cons e0 es ih =>
    intro rs i
    cases rs with
    | nil => simp [pydubRows]
    | cons r0 rs => simp [pydubRows, ih rs (i + 1)]; omega

theorem pydubRows_getElem? (rid : Nat) (fname segDir : String) :
    ∀ (es : List Entry) (rs : List (Int × Int)) (i j : Nat) (e : Entry) (r : Int × Int),
      es[j]? = some e → rs[j]? = some r →
      (pydubRows rid fname segDir i es rs)[j]? =
        some (mkPydubRow rid fname segDir (i + j) e r) := by
  intro es
  induction es with
  | nil => intro rs i j e r he _; simp at he
  | cons e0 es ih =>
    intro rs i j e r he hr
    cases rs with
    | nil => simp at hr
    | cons r0 rs =>
      cases j with
      | zero =>
        simp only [List.getElem?_cons_zero, Option.some_inj] at he hr
        subst he; subst hr
        simp [pydubRows]
      | succ j =>
        simp only [List.getElem?_cons_succ] at he hr
        have h := ih rs (i + 1) j e r he hr
        have harith : i + 1 + j = i + (j + 1) := by omega
        rw [harith] at h
        simpa [pydubRows] using h

theorem pydubRows_recording_id (rid : Nat) (fname segDir : String) :
    ∀ (es : List Entry) (rs : List (Int × Int)) (i : Nat) (row : SegmentRow),
      row ∈ pydubRows rid fname segDir i es rs → row.recording_id = rid := by
  intro es
  induction es with
  | nil => intro rs i row h; cases rs <;> simp [pydubRows] at h
  | cons e0 es ih =>
    intro rs i row h
    cases rs with
    | nil => simp [pydubRows] at h
    | cons r0 rs =>
      simp only [pydubRows, List.mem_cons] at h
      rcases h with h | h
      · subst h; rfl
      · exact ih rs (i + 1) row h

theorem ffmpegRows_allOk_length (rid : Nat) (fname segDir : String)
    (ok : Nat → Bool) (hok : ∀ k, ok k = true) :
    ∀ (es : List Entry) (rs : List (ℚ × ℚ)) (i : Nat),
      (ffmpegRows rid fname segDir ok i es rs).length = min es.length rs.length := by
  intro es
  induction es with
  | nil => intro rs i; cases rs <;> simp [ffmpegRows]
  | cons e0 es ih =>
    intro rs i
    cases rs with
    | nil => simp [ffmpegRows]
    | cons r0 rs => simp [ffmpegRows, hok i, ih rs (i + 1)]; omega

theorem ffmpegRows_allOk_getElem? (rid : Nat) (fname segDir : String)
    (ok : Nat → Bool) (hok : ∀ k, ok k = true) :
    ∀ (es : List Entry) (rs : List (ℚ × ℚ)) (i j : Nat) (e : Entry) (r : ℚ × ℚ),
      es[j]? = some e → rs[j]? = some r →
      (ffmpegRows rid fname segDir ok i es rs)[j]? =
        some (mkFfmpegRow rid fname segDir (i + j) e r) := by
  intro es
  induction es with
  | nil => intro rs i j e r he _; simp at he
  | cons e0 es ih =>
    intro rs i j e r he hr
    cases rs with
    | nil => simp at hr
    | cons r0 rs =>
      cases j with
      | zero =>
        simp only [List.getElem?_cons_zero, Option.some_inj] at he hr
        subst he; subst hr
        simp [ffmpegRows, hok i]
      | succ j =>
        simp only [List.getElem?_cons_succ] at he hr
        have h := ih rs (i + 1) j e r he hr
        have harith : i + 1 + j = i + (j + 1) := by omega
        rw [harith] at h
        simpa [ffmpegRows, hok i] using h

theorem ffmpegRows_recording_id (rid : Nat) (fname segDir : String) (ok : Nat → Bool) :
    ∀ (es : List Entry) (rs : List (ℚ × ℚ)) (i : Nat) (row : SegmentRow),
      row ∈ ffmpegRows rid fname segDir ok i es rs → row.recording_id = rid := by
  intro es
  induction es with
  | nil => intro rs i row h; cases rs <;> simp [ffmpegRows] at h
  | cons e0 es ih =>
    intro rs i row h
    cases rs with
    | nil => simp [ffmpegRows] at h
    | cons r0 rs =>
      by_cases hi : ok i = true
      · simp only [ffmpegRows, hi, if_true, List.mem_cons] at h
        rcases h with h | h
        · subst h; rfl
        · exact ih rs (i + 1) row h
      · simp only [ffmpegRows, hi] at h
        simp at h
        exact ih rs (i + 1) row h

theorem applyOps_inserts :
    ∀ (rows : List SegmentRow) (store : List SegmentRow),
      applyOps store (rows.map DbOp.insertSegment) = store ++ rows := by
  intro rows
  induction rows with
  | nil => intro store; simp [applyOps]
  | cons r rows ih =>
    intro store
    simp only [List.map_cons, applyOps, List.foldl_cons, applyOp]
    have := ih (store ++ [r])
    simp only [applyOps] at this
    rw [this, List.append_assoc]
    rfl

theorem applyOps_delete_insert (rid : Nat) (rows store : List SegmentRow) :
    applyOps store (DbOp.deleteSegments rid :: rows.map DbOp.insertSegment) =
      store.filter (fun t => t.recording_id != rid) ++ rows := by
  simp only [applyOps, List.foldl_cons, applyOp]
  exact applyOps_inserts rows _

/-- Claim C2: for E entries and R detected regions, both backends persist
exactly `min(R, E)` segment rows (assuming every ffmpeg extraction succeeds),
pairing region i with entry i in ascending positional order; regions beyond
the E-th are never persisted, and the reported created count equals
`min(R, E)`. -/
theorem claim_C2_positional_pairing
    (rid : Nat) (fname segDir : String) (entries : List Entry)
    (store : List SegmentRow) :
    (∀ regions : List (Int × Int),
      (pydubRows rid fname segDir 0 entries regions).length =
        min regions.length entries.length ∧
      (∀ (j : Nat) (e : Entry) (r : Int × Int),
        entries[j]? = some e → regions[j]? = some r →
        (pydubRows rid fname segDir 0 entries regions)[j]? =
          some (mkPydubRow rid fname segDir j e r)) ∧
      (regions ≠ [] →
        (segmentWithPydub rid fname segDir entries regions).1 =
          ((min regions.length entries.length : Nat) : Int) ∧
        ((applyOps store (segmentWithPydub rid fname segDir entries regions).2).filter
            (fun t => t.recording_id == rid)).length =
          min regions.length entries.length)) ∧
    (∀ (regions : List (ℚ × ℚ)) (ok : Nat → Bool), (∀ k, ok k = true) →
      (ffmpegRows rid fname segDir ok 0 entries regions).length =
        min regions.length entries.length ∧
      (∀ (j : Nat) (e : Entry) (r : ℚ × ℚ),
        entries[j]? = some e → regions[j]? = some r →
        (ffmpegRows rid fname segDir ok 0 entries regions)[j]? =
          some (mkFfmpegRow rid fname segDir j e r)) ∧
      (regions ≠ [] →
        (segmentWithFfmpeg rid fname segDir ok entries regions).1 =
          ((min regions.length entries.length : Nat) : Int))) := by
  constructor
  · intro regions
    refine ⟨?_, ?_, ?_⟩
    · rw [pydubRows_length]; omega
    · intro j e r he hr
      have h := pydubRows_getElem? rid fname segDir entries regions 0 j e r he hr
      simpa using h
    · intro hne
      have hlen : (pydubRows rid fname segDir 0 entries regions).length =
          min regions.length entries.length := by rw [pydubRows_length]; omega
      have hemp : regions.isEmpty = false := by
        cases regions with
        | nil => exact absurd rfl hne
        | cons a l => rfl
      constructor
      · simp only [segmentWithPydub, hemp, Bool.false_eq_true, if_false]
        exact_mod_cast hlen
      · simp only [segmentWithPydub, hemp, Bool.false_eq_true, if_false]
        rw [applyOps_delete_insert, List.filter_append]
        have h1 : (store.filter (fun t => t.recording_id != rid)).filter
            (fun t => t.recording_id == rid) = [] := by
          rw [List.filter_filter]
          apply List.filter_eq_nil_iff.mpr
          intro a _
          simp
        have h2 : (pydubRows rid fname segDir 0 entries regions).filter
            (fun t => t.recording_id == rid) =
            pydubRows rid fname segDir 0 entries regions := by
          apply List.filter_eq_self.mpr
          intro a ha
          simpa using pydubRows_recording_id rid fname segDir entries regions 0 a ha
        rw [h1, h2, List.nil_append, hlen]
  · intro regions ok hok
    refine ⟨?_, ?_, ?_⟩
    · rw [ffmpegRows_allOk_length rid fname segDir ok hok]; omega
    · intro j e r he hr
      have h := ffmpegRows_allOk_getElem? rid fname segDir ok hok entries regions 0 j e r he hr
      simpa using h
    · intro hne
      have hemp : regions.isEmpty = false := by
        cases regions with
        | nil => exact absurd rfl hne
        | cons a l => rfl
      have hlen : (ffmpegRows rid fname segDir ok 0 entries regions).length =
          min regions.length entries.length := by
        rw [ffmpegRows_allOk_length rid fname segDir ok hok]; omega
      simp only [segmentWithFfmpeg, hemp, Bool.false_eq_true, if_false]
      exact_mod_cast hlen

theorem claim_C2_witness :
    (segmentWithPydub 7 "rec" "segs" [⟨1, some 1⟩, ⟨2, none⟩]
        [(0, 5), (10, 20), (30, 40)]).1 = 2 ∧
    (segmentWithFfmpeg 7 "rec" "segs" (fun _ => true) [⟨1, some 1⟩, ⟨2, none⟩]
        [(0, 5), (10, 20), (30, 40)]).1 = 2 := by
  have h := claim_C2_positional_pairing 7 "rec" "segs" [⟨1, some 1⟩, ⟨2, none⟩] []
  constructor
  · have := (h.1 [(0, 5), (10, 20), (30, 40)]).2.2 (by decide)
    exact this.1.trans (by decide)
  · have := (h.2 [(0, 5), (10, 20), (30, 40)] (fun _ => true) (fun _ => rfl)).2.2
      (by decide)
    exact this.trans (by decide)

/-- Claim C4: for a region with `0 ≤ start ≤ end ≤ waveform length`, padding
yields `0 ≤ padded_start ≤ start`, `padded_end ≥ end` and
`padded_start ≤ padded_end`; the pydub variant additionally caps
`padded_end` at the waveform length, while the ffmpeg variant leaves
`padded_end = end + guard` uncapped. -/
theorem claim_C4_padding_bounds :
    (∀ audioLen s e : Int, 0 ≤ s → s ≤ e → e ≤ audioLen →
      0 ≤ (pydubPad audioLen (s, e)).1 ∧ (pydubPad audioLen (s, e)).1 ≤ s ∧
      e ≤ (pydubPad audioLen (s, e)).2 ∧
      (pydubPad audioLen (s, e)).1 ≤ (pydubPad audioLen (s, e)).2 ∧
      (pydubPad audioLen (s, e)).2 ≤ audioLen) ∧
    (∀ s e : ℚ, 0 ≤ s → s ≤ e →
      0 ≤ (ffmpegPad (s, e)).1 ∧ (ffmpegPad (s, e)).1 ≤ s ∧
      e ≤ (ffmpegPad (s, e)).2 ∧ (ffmpegPad (s, e)).1 ≤ (ffmpegPad (s, e)).2 ∧
      (ffmpegPad (s, e)).2 = e + keepS) := by
  constructor
  · intro audioLen s e h0 hse heL
    simp only [pydubPad, KEEP_SILENCE_MS]
    refine ⟨?_, ?_, ?_, ?_, ?_⟩ <;> omega
  · intro s e h0 hse
    have hk : (0 : ℚ) < keepS := by norm_num [keepS, KEEP_SILENCE_MS]
    refine ⟨?_, ?_, ?_, ?_, rfl⟩
    · show (0 : ℚ) ≤ max 0 (s - keepS)
      exact le_max_left _ _
    · show max 0 (s - keepS) ≤ s
      exact max_le h0 (by linarith)
    · show e ≤ e + keepS
      linarith
    · show max 0 (s - keepS) ≤ e + keepS
      have hm : max 0 (s - keepS) ≤ s := max_le h0 (by linarith)
      linarith

theorem claim_C4_witness :
    0 ≤ (pydubPad 1000 (50, 400)).1 ∧ (pydubPad 1000 (50, 400)).1 ≤ 50 ∧
    (400 : Int) ≤ (pydubPad 1000 (50, 400)).2 ∧
    (pydubPad 1000 (50, 400)).1 ≤ (pydubPad 1000 (50, 400)).2 ∧
    (pydubPad 1000 (50, 400)).2 ≤ 1000 := by
  exact claim_C4_padding_bounds.1 1000 50 400 (by decide) (by decide) (by decide)

/-- Claim C5: when a re-segmentation reaches the persistence step (a
nonempty region list), the transaction starts with the delete of all prior
rows of the recording, the committed state holds exactly the freshly
inserted rows for that recording (no stale or duplicate rows) with other
recordings untouched, and since the delete and all inserts commit as one
per-recording transaction, an interrupted run shows either the full prior
state or the full new state, never a mixture. -/
theorem claim_C5_supersede_transaction
    (rid : Nat) (fname segDir : String) (entries : List Entry)
    (regions : List (Int × Int)) (store : List SegmentRow)
    (hne : regions ≠ []) :
    (segmentWithPydub rid fname segDir entries regions).2.head? =
      some (DbOp.deleteSegments rid) ∧
    (applyOps store (segmentWithPydub rid fname segDir entries regions).2).filter
        (fun t => t.recording_id == rid) =
      pydubRows rid fname segDir 0 entries regions ∧
    (applyOps store (segmentWithPydub rid fname segDir entries regions).2).filter
        (fun t => t.recording_id != rid) =
      store.filter (fun t => t.recording_id != rid) ∧
    (∀ committed : Bool,
      txnVisible store (segmentWithPydub rid fname segDir entries regions).2 committed =
          store ∨
      txnVisible store (segmentWithPydub rid fname segDir entries regions).2 committed =
          applyOps store (segmentWithPydub rid fname segDir entries regions).2) := by
  have hemp : regions.isEmpty = false := by
    cases regions with
    | nil => exact absurd rfl hne
    | cons a l => rfl
  refine ⟨?_, ?_, ?_, ?_⟩
  · simp [segmentWithPydub, hemp]
  · simp only [segmentWithPydub, hemp, Bool.false_eq_true, if_false]
    rw [applyOps_delete_insert, List.filter_append]
    have h1 : (store.filter (fun t => t.recording_id != rid)).filter
        (fun t => t.recording_id == rid) = [] := by
      rw [List.filter_filter]
      apply List.filter_eq_nil_iff.mpr
      intro a _
      simp
    have h2 : (pydubRows rid fname segDir 0 entries regions).filter
        (fun t => t.recording_id == rid) =
        pydubRows rid fname segDir 0 entries regions := by
      apply List.filter_eq_self.mpr
      intro a ha
      simpa using pydubRows_recording_id rid fname segDir entries regions 0 a ha
    rw [h1, h2, List.nil_append]
  · simp only [segmentWithPydub, hemp, Bool.false_eq_true, if_false]
    rw [applyOps_delete_insert, List.filter_append]
    have h1 : (store.filter (fun t => t.recording_id != rid)).filter
        (fun t => t.recording_id != rid) = store.filter (fun t => t.recording_id != rid) := by
      rw [List.filter_filter]
      apply List.filter_congr
      intro a _
      simp
    have h2 : (pydubRows rid fname segDir 0 entries regions).filter
        (fun t => t.recording_id != rid) = [] := by
      apply List.filter_eq_nil_iff.mpr
      intro a ha
      simpa using pydubRows_recording_id rid fname segDir entries regions 0 a ha
    rw [h1, h2, List.append_nil]
  · intro committed
    cases committed with
    | false => left; rfl
    | true => right; rfl

theorem claim_C5_witness :
    (applyOps
        [⟨9, 7, "old", 0, 1⟩, ⟨8, 3, "other", 2, 3⟩]
        (segmentWithPydub 7 "rec" "segs" [⟨1, some 1⟩] [(0, 5)]).2).filter
      (fun t => t.recording_id == 7) = pydubRows 7 "rec" "segs" 0 [⟨1, some 1⟩] [(0, 5)] := by
  exact (claim_C5_supersede_transaction 7 "rec" "segs" [⟨1, some 1⟩] [(0, 5)]
    [⟨9, 7, "old", 0, 1⟩, ⟨8, 3, "other", 2, 3⟩] (by decide)).2.1

/-- Claim C7: when a recording has entries but its source waveform file is
absent, the worker returns the sentinel -1, issues no store operation (the
segments table is unchanged), and that outcome differs from the 0 returned
when nothing is detected. -/
theorem claim_C7_missing_source
    (entries : List Entry) (backend : Int × List DbOp) (store : List SegmentRow)
    (hne : entries ≠ []) :
    (segmentRecordingWorker entries false backend).1 = -1 ∧
    (segmentRecordingWorker entries false backend).2 = [] ∧
    applyOps store (segmentRecordingWorker entries false backend).2 = store ∧
    (segmentRecordingWorker entries false backend).1 ≠ 0 := by
  have hemp : entries.isEmpty = false := by
    cases entries with
    | nil => exact absurd rfl hne
    | cons a l => rfl
  refine ⟨?_, ?_, ?_, ?_⟩ <;> simp [segmentRecordingWorker, hemp, applyOps]

theorem claim_C7_witness :
    (segmentRecordingWorker [⟨1, some 1⟩] false (5, [])).1 = -1 ∧
    applyOps [⟨9, 7, "old", 0, 1⟩] (segmentRecordingWorker [⟨1, some 1⟩] false (5, [])).2 =
      [⟨9, 7, "old", 0, 1⟩] := by
  have h := claim_C7_missing_source [⟨1, some 1⟩] (5, []) [⟨9, 7, "old", 0, 1⟩]
    (by decide)
  exact ⟨h.1, h.2.2.1⟩

theorem ffmpegRows_length_countP (rid : Nat) (fname segDir : String) (ok : Nat → Bool) :
    ∀ (es : List Entry) (rs : List (ℚ × ℚ)) (i : Nat),
      (ffmpegRows rid fname segDir ok i es rs).length =
        (List.range (min es.length rs.length)).countP (fun j => ok (i + j)) := by
  intro es
  induction es with
  | nil => intro rs i; cases rs <;> simp [ffmpegRows]
  | cons e0 es ih =>
    intro rs i
    cases rs with
    | nil => simp [ffmpegRows]
    | cons r0 rs =>
      have hmin : min (e0 :: es).length (r0 :: rs).length = min es.length rs.length + 1 := by
        simp only [List.length_cons]; omega
      rw [hmin, List.range_succ_eq_map, List.countP_cons, List.countP_map]
      have hfun : ((fun j => ok (i + j)) ∘ Nat.succ) = fun j => ok (i + 1 + j) := by
        funext j
        simp only [Function.comp]
        congr 1
        omega
      by_cases hi : ok i = true
      · simp only [ffmpegRows, hi, if_true, List.length_cons, ih rs (i + 1), hfun]
        simp [hi]
      · simp only [ffmpegRows, hi, if_false, hfun]
        simp only [hi, Nat.add_zero, Bool.false_eq_true, if_false, Nat.add_zero]
        rw [ih rs (i + 1)]

theorem ffmpegRows_mem_of_ok (rid : Nat) (fname segDir : String) (ok : Nat → Bool) :
    ∀ (es : List Entry) (rs : List (ℚ × ℚ)) (i j : Nat) (e : Entry) (r : ℚ × ℚ),
      es[j]? = some e → rs[j]? = some r → ok (i + j) = true →
      mkFfmpegRow rid fname segDir (i + j) e r ∈ ffmpegRows rid fname segDir ok i es rs := by
  intro es
  induction es with
  | nil => intro rs i j e r he _ _; simp at he
  | cons e0 es ih =>
    intro rs i j e r he hr hok
    cases rs with
    | nil => simp at hr
    | cons r0 rs =>
      cases j with
      | zero =>
        simp only [List.getElem?_cons_zero, Option.some_inj] at he hr
        subst he; subst hr
        simp only [Nat.add_zero] at hok ⊢
        simp [ffmpegRows, hok]
      | succ j =>
        simp only [List.getElem?_cons_succ] at he hr
        have harith : i + (j + 1) = i + 1 + j := by omega
        rw [harith] at hok ⊢
        have h := ih rs (i + 1) j e r he hr hok
        by_cases hi : ok i = true
        · simp only [ffmpegRows, hi, if_true]
          exact List.mem_cons_of_mem _ h
        · simp only [ffmpegRows, hi, if_false]
          exact h

theorem ffmpegRows_mem_inv (rid : Nat) (fname segDir : String) (ok : Nat → Bool) :
    ∀ (es : List Entry) (rs : List (ℚ × ℚ)) (i : Nat) (row : SegmentRow),
      row ∈ ffmpegRows rid fname segDir ok i es rs →
      ∃ (j : Nat) (e : Entry) (r : ℚ × ℚ),
        es[j]? = some e ∧ rs[j]? = some r ∧ ok (i + j) = true ∧
        row = mkFfmpegRow rid fname segDir (i + j) e r := by
  intro es
  induction es with
  | nil => intro rs i row h; cases rs <;> simp [ffmpegRows] at h
  | cons e0 es ih =>
    intro rs i row h
    cases rs with
    | nil => simp [ffmpegRows] at h
    | cons r0 rs =>
      have htail : row ∈ ffmpegRows rid fname segDir ok (i + 1) es rs →
          ∃ (j : Nat) (e : Entry) (r : ℚ × ℚ),
            (e0 :: es)[j]? = some e ∧ (r0 :: rs)[j]? = some r ∧ ok (i + j) = true ∧
            row = mkFfmpegRow rid fname segDir (i + j) e r := by
        intro hmem
        obtain ⟨j, e, r, he, hr, hok, hrow⟩ := ih rs (i + 1) row hmem
        refine ⟨j + 1, e, r, ?_, ?_, ?_, ?_⟩
        · simpa using he
        · simpa using hr
        · have harith : i + (j + 1) = i + 1 + j := by omega
          rw [harith]; exact hok
        · have harith : i + (j + 1) = i + 1 + j := by omega
          rw [harith]; exact hrow
      by_cases hi : ok i = true
      · simp only [ffmpegRows, hi, if_true, List.mem_cons] at h
        rcases h with h | h
        · exact ⟨0, e0, r0, by simp, by simp, by simpa using hi, by simpa using h⟩
        · exact htail h
      · simp only [ffmpegRows, hi, if_false] at h
        simp at h
        exact htail h

/-- Claim C8: in the ffmpeg backend a failed extraction subprocess for one
region inserts no row for that region's entry and does not stop the loop:
every region whose extraction succeeds is still persisted, paired with its
own positional entry, and the reported created count is the number of
regions (among the first `min(R, E)`) whose extraction succeeded. -/
theorem claim_C8_extraction_failure
    (rid : Nat) (fname segDir : String) (ok : Nat → Bool)
    (entries : List Entry) (regions : List (ℚ × ℚ))
    (hN : (entries.map (fun e => e.id)).Nodup) :
    (regions ≠ [] →
      (segmentWithFfmpeg rid fname segDir ok entries regions).1 =
        (((List.range (min entries.length regions.length)).countP ok : Nat) : Int)) ∧
    (∀ (j : Nat) (e : Entry) (r : ℚ × ℚ),
      entries[j]? = some e → regions[j]? = some r → ok j = true →
      mkFfmpegRow rid fname segDir j e r ∈ ffmpegRows rid fname segDir ok 0 entries regions) ∧
    (∀ (j : Nat) (e : Entry), entries[j]? = some e → ok j = false →
      ∀ row ∈ ffmpegRows rid fname segDir ok 0 entries regions, row.entry_id ≠ e.id) := by
  have hzero : (fun j => ok (0 + j)) = ok := by
    funext j; simp
  refine ⟨?_, ?_, ?_⟩
  · intro hne
    have hemp : regions.isEmpty = false := by
      cases regions with
      | nil => exact absurd rfl hne
      | cons a l => rfl
    simp only [segmentWithFfmpeg, hemp, Bool.false_eq_true, if_false]
    rw [ffmpegRows_length_countP rid fname segDir ok entries regions 0, hzero]
  · intro j e r he hr hok
    have h := ffmpegRows_mem_of_ok rid fname segDir ok entries regions 0 j e r he hr
      (by simpa using hok)
    simpa using h
  · intro j e he hjf row hrow heq
    obtain ⟨k, e2, r2, he2, _, hok2, hrow2⟩ :=
      ffmpegRows_mem_inv rid fname segDir ok entries regions 0 row hrow
    simp only [Nat.zero_add] at hok2 hrow2
    have hid : e2.id = e.id := by
      have : row.entry_id = e2.id := by rw [hrow2]; rfl
      omega
    have hmapj : (entries.map (fun e => e.id))[j]? = some e.id := by
      simp [List.getElem?_map, he]
    have hmapk : (entries.map (fun e => e.id))[k]? = some e.id := by
      simp [List.getElem?_map, he2, hid]
    have hjk : j ≠ k := by
      intro hcontr
      rw [hcontr] at hjf
      rw [hjf] at hok2
      exact Bool.false_ne_true hok2
    have hjlt : j < (entries.map (fun e => e.id)).length := by
      by_contra hge
      rw [List.getElem?_eq_none (by omega)] at hmapj
      exact Option.noConfusion hmapj
    exact hjk (List.getElem?_inj hjlt hN (hmapj.trans hmapk.symm))

theorem claim_C8_witness :
    (segmentWithFfmpeg 7 "rec" "segs" (fun i => i != 1)
        [⟨1, some 1⟩, ⟨2, some 2⟩, ⟨3, some 3⟩] [(0, 1), (2, 3), (4, 5)]).1 = 2 ∧
    mkFfmpegRow 7 "rec" "segs" 2 ⟨3, some 3⟩ (4, 5) ∈
      ffmpegRows 7 "rec" "segs" (fun i => i != 1) 0
        [⟨1, some 1⟩, ⟨2, some 2⟩, ⟨3, some 3⟩] [(0, 1), (2, 3), (4, 5)] ∧
    (∀ row ∈ ffmpegRows 7 "rec" "segs" (fun i => i != 1) 0
        [⟨1, some 1⟩, ⟨2, some 2⟩, ⟨3, some 3⟩] [(0, 1), (2, 3), (4, 5)],
      row.entry_id ≠ 2) := by
  have h := claim_C8_extraction_failure 7 "rec" "segs" (fun i => i != 1)
    [⟨1, some 1⟩, ⟨2, some 2⟩, ⟨3, some 3⟩] [(0, 1), (2, 3), (4, 5)] (by decide)
  refine ⟨(h.1 (by decide)).trans (by decide), ?_, ?_⟩
  · exact h.2.1 2 ⟨3, some 3⟩ (4, 5) (by decide) (by decide) rfl
  · exact h.2.2 1 ⟨2, some 2⟩ (by decide) rfl

theorem silenceGapsL_spec :
    ∀ (rest es : List ℚ) (s prev : ℚ), es.length = rest.length + 1 →
      silenceGapsL (s :: rest) es prev =
        ((if prev < s then [(prev, s)] else []) ++ gapsBetween es rest,
         es.getLastD prev) := by
  intro rest
  induction rest with
  | nil =>
    intro es s prev hlen
    cases es with
    | nil => simp at hlen
    | cons e es2 =>
      have : es2 = [] := List.length_eq_zero.mp (by simpa using hlen)
      subst this
      simp [silenceGapsL, gapsBetween, List.getLastD_cons]
  | cons s1 rest2 ih =>
    intro es s prev hlen
    cases es with
    | nil => simp at hlen
    | cons e es2 =>
      have hlen2 : es2.length = rest2.length + 1 := by simpa using hlen
      have hunfold : silenceGapsL (s :: s1 :: rest2) (e :: es2) prev =
          ((if prev < s then [(prev, s)] else []) ++
             (silenceGapsL (s1 :: rest2) es2 e).1,
           (silenceGapsL (s1 :: rest2) es2 e).2) := rfl
      rw [hunfold, ih es2 s1 e hlen2]
      show _ = ((if prev < s then [(prev, s)] else []) ++
          gapsBetween (e :: es2) (s1 :: rest2), (e :: es2).getLastD prev)
      rw [List.getLastD_cons]
      rfl

theorem getLastD_mem_of_ne_nil :
    ∀ (l : List ℚ) (d : ℚ), l ≠ [] → l.getLastD d ∈ l := by
  intro l
  induction l with
  | nil => intro d h; exact absurd rfl h
  | cons a l ih =>
    intro d _
    rw [List.getLastD_cons]
    cases l with
    | nil => simp
    | cons b l2 => exact List.mem_cons_of_mem a (ih a (by simp))

/-- Claim C3 counterexample: the gap description does not hold for every
parsed diagnostic stream.  On a stream with a final silence start that has
no matching silence end — `starts = [1]`, `ends = []`, `duration = 10` —
`prev_end` is never updated, so the code returns `[(0, 1), (0, 10)]`,
while the described gap structure (initial region, gaps between silence
events, trailing region from the last silence end) gives only `[(0, 1)]`. -/
theorem claim_C3_counterexample :
    ffmpegDetectNonsilent [1] [] 10 = [(0, 1), (0, 10)] ∧
    ffmpegRegionsSpecOf [1] [] 10 = [(0, 1)] ∧
    ffmpegDetectNonsilent [1] [] 10 ≠ ffmpegRegionsSpecOf [1] [] 10 := by
  decide

/-- Claim C3 (amended): on a parsed diagnostic stream in which every silence
start has a matching silence end (equally many parsed starts and ends; all
parsed times nonnegative — the regexes only match unsigned numbers), the
detector output is exactly the gap description: an initial region from 0 to
the first silence start when positive, one region per positive gap between a
silence end and the next silence start, a trailing region from the last
silence end to the declared duration when that end is before it; and with
zero silence events, the single region `(0, duration)` when the duration is
known, else the empty list. -/
theorem claim_C3_ffmpeg_detector
    (starts ends : List ℚ) (duration : ℚ)
    (hlen : ends.length = starts.length)
    (hnn : ∀ x ∈ ends, 0 ≤ x) :
    ffmpegDetectNonsilent starts ends duration =
      ffmpegRegionsSpecOf starts ends duration := by
  cases starts with
  | nil =>
    have : ends = [] := List.length_eq_zero.mp (by simpa using hlen)
    subst this
    by_cases hd : 0 < duration
    · simp [ffmpegDetectNonsilent, silenceGapsL, ffmpegRegionsSpecOf, hd]
    · simp [ffmpegDetectNonsilent, silenceGapsL, ffmpegRegionsSpecOf, hd]
  | cons s0 rest =>
    have hlen2 : ends.length = rest.length + 1 := by simpa using hlen
    have hends_ne : ends ≠ [] := by
      cases ends with
      | nil => simp at hlen2
      | cons a l => simp
    have hemp : ends.isEmpty = false := by
      cases ends with
      | nil => exact absurd rfl hends_ne
      | cons a l => rfl
    have h0le : 0 ≤ ends.getLastD 0 := hnn _ (getLastD_mem_of_ne_nil ends 0 hends_ne)
    unfold ffmpegDetectNonsilent
    rw [silenceGapsL_spec rest ends s0 0 hlen2]
    by_cases hlt : ends.getLastD 0 < duration
    · have hd : 0 < duration := lt_of_le_of_lt h0le hlt
      rw [List.getLastD_eq_getLast?] at hlt
      simp [hd, hlt, ffmpegRegionsSpecOf, hemp, List.append_assoc]
    · rw [List.getLastD_eq_getLast?] at hlt
      simp [hlt, ffmpegRegionsSpecOf, hemp]

theorem claim_C3_witness :
    ffmpegDetectNonsilent [1, 4] [2, 6] 10 = ffmpegRegionsSpecOf [1, 4] [2, 6] 10 := by
  exact claim_C3_ffmpeg_detector [1, 4] [2, 6] 10 (by decide) (by decide)

theorem silenceGapsL_inv :
    ∀ (ss es : List ℚ) (prev : ℚ),
      ss.length ≤ es.length →
      (∀ (i : Nat) (h1 : i < ss.length) (h2 : i < es.length), ss[i] ≤ es[i]) →
      es.Sorted (· ≤ ·) →
      (∀ r ∈ (silenceGapsL ss es prev).1, r.1 < r.2) ∧
      ((silenceGapsL ss es prev).1.Pairwise (fun a b => a.2 ≤ b.1)) ∧
      (∀ r ∈ (silenceGapsL ss es prev).1, r.1 = prev ∨ r.1 ∈ es) ∧
      (∀ r ∈ (silenceGapsL ss es prev).1, r.2 ≤ (silenceGapsL ss es prev).2) ∧
      (∀ x, es.head? = some x → ss ≠ [] → x ≤ (silenceGapsL ss es prev).2) := by
  intro ss
  induction ss with
  | nil =>
    intro es prev _ _ _
    refine ⟨?_, ?_, ?_, ?_, ?_⟩ <;> simp [silenceGapsL]
  | cons s rest ih =>
    intro es prev hlen hint hsort
    cases es with
    | nil => simp at hlen
    | cons e es2 =>
      have hlen2 : rest.length ≤ es2.length := by simpa using hlen
      have hint2 : ∀ (i : Nat) (h1 : i < rest.length) (h2 : i < es2.length),
          rest[i] ≤ es2[i] := by
        intro i h1 h2
        have := hint (i + 1) (by simpa using Nat.succ_lt_succ h1)
          (by simpa using Nat.succ_lt_succ h2)
        simpa using this
      obtain ⟨hes, hsort2⟩ := List.sorted_cons.mp hsort
      obtain ⟨ih1, ih2, ih3, ih4, ih5⟩ := ih es2 e hlen2 hint2 hsort2
      have hse : s ≤ e := by
        have := hint 0 (by simp) (by simp)
        simpa using this
      have hefin : e ≤ (silenceGapsL rest es2 e).2 := by
        cases rest with
        | nil => simp [silenceGapsL]
        | cons s1 rest2 =>
          cases es2 with
          | nil => simp at hlen2
          | cons x es3 =>
            have hx := ih5 x (by simp) (by simp)
            have hex : e ≤ x := hes x (by simp)
            linarith
      have hunfold : silenceGapsL (s :: rest) (e :: es2) prev =
          ((if prev < s then [(prev, s)] else []) ++ (silenceGapsL rest es2 e).1,
           (silenceGapsL rest es2 e).2) := rfl
      rw [hunfold]
      simp only []
      have hcross : ∀ b ∈ (silenceGapsL rest es2 e).1, s ≤ b.1 := by
        intro b hb
        rcases ih3 b hb with h | h
        · rw [h]; exact hse
        · exact le_trans hse (hes _ h)
      refine ⟨?_, ?_, ?_, ?_, ?_⟩
      · intro r hr
        rcases List.mem_append.mp hr with h | h
        · by_cases hps : prev < s
          · simp only [hps, if_true, List.mem_singleton] at h
            subst h
            exact hps
          · simp [hps] at h
        · exact ih1 r h
      · rw [List.pairwise_append]
        refine ⟨?_, ih2, ?_⟩
        · by_cases hps : prev < s <;> simp [hps]
        · intro a ha b hb
          by_cases hps : prev < s
          · simp only [hps, if_true, List.mem_singleton] at ha
            subst ha
            exact hcross b hb
          · simp [hps] at ha
      · intro r hr
        rcases List.mem_append.mp hr with h | h
        · by_cases hps : prev < s
          · simp only [hps, if_true, List.mem_singleton] at h
            subst h
            left; rfl
          · simp [hps] at h
        · rcases ih3 r h with h2 | h2
          · right; rw [h2]; exact List.mem_cons_self e es2
          · right; exact List.mem_cons_of_mem e h2
      · intro r hr
        rcases List.mem_append.mp hr with h | h
        · by_cases hps : prev < s
          · simp only [hps, if_true, List.mem_singleton] at h
            subst h
            exact le_trans hse hefin
          · simp [hps] at h
        · exact ih4 r h
      · intro x hx _
        simp only [List.head?_cons, Option.some_inj] at hx
        subst hx
        exact hefin

/-- Claim C9 counterexample: with the hypotheses exactly as stated
(nondecreasing starts and ends, every i-th silence end at least the i-th
silence start where both exist, all times nonnegative and bounded by the
declared duration) but a silence start lacking a matching silence end, the
detector can emit overlapping, non-ascending regions: on
starts = [1, 5], ends = [2], duration = 10 it returns
[(0, 1), (2, 5), (2, 10)], where the last two regions overlap. -/
theorem claim_C9_counterexample :
    ([1, 5] : List ℚ).Sorted (· ≤ ·) ∧
    ([2] : List ℚ).Sorted (· ≤ ·) ∧
    (∀ (i : Nat) (h1 : i < ([1, 5] : List ℚ).length) (h2 : i < ([2] : List ℚ).length),
      ([1, 5] : List ℚ)[i] ≤ ([2] : List ℚ)[i]) ∧
    (∀ x ∈ ([1, 5] : List ℚ), x ≤ 10) ∧ (∀ x ∈ ([2] : List ℚ), x ≤ 10) ∧
    (∀ x ∈ ([1, 5] : List ℚ), 0 ≤ x) ∧ (∀ x ∈ ([2] : List ℚ), 0 ≤ x) ∧
    ¬((∀ r ∈ ffmpegDetectNonsilent [1, 5] [2] 10, r.1 < r.2) ∧
      (ffmpegDetectNonsilent [1, 5] [2] 10).Pairwise (fun a b => a.2 ≤ b.1)) := by
  decide

/-- Claim C9 (amended): under the stated hypotheses strengthened by the
requirement that every silence start has a matching silence end
(`starts.length ≤ ends.length`), every returned region has strictly positive
length and the returned list is ascending and pairwise non-overlapping. -/
theorem claim_C9_regions_invariant
    (starts ends : List ℚ) (duration : ℚ)
    (hs : starts.Sorted (· ≤ ·)) (hesort : ends.Sorted (· ≤ ·))
    (hlen : starts.length ≤ ends.length)
    (hint : ∀ (i : Nat) (h1 : i < starts.length) (h2 : i < ends.length),
      starts[i] ≤ ends[i])
    (hbs : ∀ x ∈ starts, x ≤ duration) (hbe : ∀ x ∈ ends, x ≤ duration)
    (hns : ∀ x ∈ starts, 0 ≤ x) (hnes : ∀ x ∈ ends, 0 ≤ x) :
    (∀ r ∈ ffmpegDetectNonsilent starts ends duration, r.1 < r.2) ∧
    (ffmpegDetectNonsilent starts ends duration).Pairwise (fun a b => a.2 ≤ b.1) := by
  obtain ⟨h1, h2, h3, h4, h5⟩ := silenceGapsL_inv starts ends 0 hlen hint hesort
  unfold ffmpegDetectNonsilent
  by_cases hb1 : 0 < duration ∧ (silenceGapsL starts ends 0).2 < duration
  · rw [if_pos hb1]
    constructor
    · intro r hr
      rcases List.mem_append.mp hr with h | h
      · exact h1 r h
      · simp only [List.mem_singleton] at h
        subst h
        exact hb1.2
    · rw [List.pairwise_append]
      refine ⟨h2, by simp, ?_⟩
      intro a ha b hb
      simp only [List.mem_singleton] at hb
      subst hb
      exact h4 a ha
  · rw [if_neg hb1]
    by_cases hb2 : starts = [] ∧ 0 < duration
    · rw [if_pos hb2]
      obtain ⟨hsnil, hd⟩ := hb2
      subst hsnil
      constructor
      · intro r hr
        have hreq : r = ((0 : ℚ), duration) := by
          simpa [silenceGapsL] using hr
        rw [hreq]
        exact hd
      · simp [silenceGapsL]
    · rw [if_neg hb2]
      exact ⟨h1, h2⟩

theorem claim_C9_witness :
    (∀ r ∈ ffmpegDetectNonsilent [1, 5] [2, 6] 10, r.1 < r.2) ∧
    (ffmpegDetectNonsilent [1, 5] [2, 6] 10).Pairwise (fun a b => a.2 ≤ b.1) := by
  exact claim_C9_regions_invariant [1, 5] [2, 6] 10 (by decide) (by decide)
    (by decide) (by decide) (by decide) (by decide) (by decide) (by decide)

/-- Claim C10: `segment_recording` returns the same sentinel -1 as the
missing-source path when the recording id is unknown (independently of any
detector outcome), and returns 0 with no store change and no detector
invocation when the recording exists but is not a word-list. -/
theorem claim_C10_entry_point
    (recs : List Recording) (rid : Nat) (worker : Int × List DbOp)
    (store : List SegmentRow) :
    (findRecording recs rid = none →
      segment_recording recs rid worker = (-1, []) ∧
      (∀ worker2, segment_recording recs rid worker =
        segment_recording recs rid worker2) ∧
      (∀ (e : Entry) (es : List Entry) (backend : Int × List DbOp),
        (segment_recording recs rid worker).1 =
          (segmentRecordingWorker (e :: es) false backend).1)) ∧
    (∀ rec, findRecording recs rid = some rec → rec.recording_type ≠ "word-list" →
      segment_recording recs rid worker = (0, []) ∧
      applyOps store (segment_recording recs rid worker).2 = store ∧
      (∀ worker2, segment_recording recs rid worker =
        segment_recording recs rid worker2)) := by
  constructor
  · intro hnone
    refine ⟨?_, ?_, ?_⟩
    · simp [segment_recording, hnone]
    · intro worker2; simp [segment_recording, hnone]
    · intro e es backend
      simp [segment_recording, hnone, segmentRecordingWorker]
  · intro rec hsome htype
    refine ⟨?_, ?_, ?_⟩
    · simp [segment_recording, hsome, htype]
    · simp [segment_recording, hsome, htype, applyOps]
    · intro worker2; simp [segment_recording, hsome, htype]

theorem claim_C10_witness :
    segment_recording [⟨4, "word-list", true, "EN"⟩] 9 (3, []) = (-1, []) ∧
    segment_recording [⟨4, "phrase-list", true, "EN"⟩] 4 (3, []) = (0, []) := by
  constructor
  · exact ((claim_C10_entry_point [⟨4, "word-list", true, "EN"⟩] 9 (3, []) []).1
      (by decide)).1
  · exact ((claim_C10_entry_point [⟨4, "phrase-list", true, "EN"⟩] 4 (3, []) []).2
      ⟨4, "phrase-list", true, "EN"⟩ (by decide) (by decide)).1

theorem runWorkersStore_cons (w : Nat → Option (List SegmentRow))
    (p : Recording) (procs : List Recording) (store : List SegmentRow) :
    runWorkersStore w (p :: procs) store =
      runWorkersStore w procs (workerApply w p.id store) := rfl

theorem workerApply_filter_ne (w : Nat → Option (List SegmentRow))
    (hW : ∀ rid rows, w rid = some rows → ∀ row ∈ rows, row.recording_id = rid)
    (rid r2 : Nat) (hne : rid ≠ r2) (store : List SegmentRow) :
    (workerApply w rid store).filter (fun t => t.recording_id == r2) =
      store.filter (fun t => t.recording_id == r2) := by
  cases hw : w rid with
  | none => simp [workerApply, hw]
  | some rows =>
    cases rows with
    | nil => simp [workerApply, hw]
    | cons row rows2 =>
      simp only [workerApply, hw]
      rw [List.filter_append]
      have h1 : (store.filter (fun t => t.recording_id != rid)).filter
          (fun t => t.recording_id == r2) =
          store.filter (fun t => t.recording_id == r2) := by
        rw [List.filter_filter]
        apply List.filter_congr
        intro a _
        by_cases h : a.recording_id = r2
        · have h2 : a.recording_id ≠ rid := by omega
          simp [h, h2]
          omega
        · simp [h]
      have h2 : (row :: rows2).filter (fun t => t.recording_id == r2) = [] := by
        apply List.filter_eq_nil_iff.mpr
        intro a ha
        have hid := hW rid (row :: rows2) hw a ha
        simp [hid]
        omega
      rw [h1, h2, List.append_nil]

theorem runWorkersStore_filter_ne (w : Nat → Option (List SegmentRow))
    (hW : ∀ rid rows, w rid = some rows → ∀ row ∈ rows, row.recording_id = rid) :
    ∀ (procs : List Recording) (store : List SegmentRow) (rid : Nat),
      (∀ p ∈ procs, p.id ≠ rid) →
      (runWorkersStore w procs store).filter (fun t => t.recording_id == rid) =
        store.filter (fun t => t.recording_id == rid) := by
  intro procs
  induction procs with
  | nil => intro store rid _; rfl
  | cons p procs ih =>
    intro store rid hall
    rw [runWorkersStore_cons,
        ih _ rid (fun q hq => hall q (List.mem_cons_of_mem p hq)),
        workerApply_filter_ne w hW p.id rid (hall p (List.mem_cons_self p procs)) store]

theorem runWorkersStore_filter_mem (w : Nat → Option (List SegmentRow))
    (hW : ∀ rid rows, w rid = some rows → ∀ row ∈ rows, row.recording_id = rid) :
    ∀ (procs : List Recording) (store : List SegmentRow) (rid : Nat),
      rid ∈ procs.map (fun r => r.id) → (procs.map (fun r => r.id)).Nodup →
      (runWorkersStore w procs store).filter (fun t => t.recording_id == rid) =
        workerRowsOr w rid (store.filter (fun t => t.recording_id == rid)) := by
  intro procs
  induction procs with
  | nil => intro store rid h _; simp at h
  | cons p procs ih =>
    intro store rid hmem hnd
    rw [List.map_cons] at hmem hnd
    rw [runWorkersStore_cons]
    by_cases hp : rid = p.id
    · subst hp
      have hnotin : p.id ∉ procs.map (fun r => r.id) := (List.nodup_cons.mp hnd).1
      have hnot : ∀ q ∈ procs, q.id ≠ p.id := by
        intro q hq heq
        exact hnotin (heq ▸ List.mem_map_of_mem (fun r => r.id) hq)
      rw [runWorkersStore_filter_ne w hW procs _ p.id hnot]
      cases hw : w p.id with
      | none => simp [workerApply, workerRowsOr, hw]
      | some rows =>
        cases rows with
        | nil => simp [workerApply, workerRowsOr, hw]
        | cons row rows2 =>
          simp only [workerApply, workerRowsOr, hw]
          rw [List.filter_append]
          have h1 : (store.filter (fun t => t.recording_id != p.id)).filter
              (fun t => t.recording_id == p.id) = [] := by
            rw [List.filter_filter]
            apply List.filter_eq_nil_iff.mpr
            intro a _
            simp
          have h2 : (row :: rows2).filter (fun t => t.recording_id == p.id) =
              row :: rows2 := by
            apply List.filter_eq_self.mpr
            intro a ha
            simpa using hW p.id (row :: rows2) hw a ha
          rw [h1, h2, List.nil_append]
    · have hmem2 : rid ∈ procs.map (fun r => r.id) := by
        rcases List.mem_cons.mp hmem with h | h
        · exact absurd h hp
        · exact h
      have hnd2 : (procs.map (fun r => r.id)).Nodup := (List.nodup_cons.mp hnd).2
      rw [ih _ rid hmem2 hnd2,
          workerApply_filter_ne w hW p.id rid (fun h => hp h.symm) store]

theorem sum_map_ite_split (l : List Recording) (p : Recording → Bool)
    (f g : Recording → Int) :
    (l.map (fun a => if p a then f a else g a)).sum =
      ((l.filter p).map f).sum + ((l.filter (fun a => !p a)).map g).sum := by
  induction l with
  | nil => simp
  | cons a l ih =>
    cases hpa : p a
    · simp only [List.filter_cons, hpa, Bool.not_false, if_true, if_false,
        List.map_cons, List.sum_cons, ih]
      simp [hpa]
      ring
    · simp only [List.filter_cons, hpa, Bool.not_true, if_true, if_false,
        List.map_cons, List.sum_cons, ih]
      simp [hpa]
      ring

theorem sum_map_congr_mem (l : List Recording) (f g : Recording → Int)
    (h : ∀ a ∈ l, f a = g a) : (l.map f).sum = (l.map g).sum := by
  induction l with
  | nil => rfl
  | cons a l ih =>
    simp only [List.map_cons, List.sum_cons, h a (List.mem_cons_self a l),
      ih (fun b hb => h b (List.mem_cons_of_mem a hb))]

theorem workerContribution (w : Nat → Option (List SegmentRow)) (rid : Nat) :
    (if workerCreated w rid > 0 then workerCreated w rid else 0) =
      (createdNat w rid : Int) := by
  cases hw : w rid with
  | none =>
    simp only [workerCreated, createdNat, hw]
    norm_num
  | some rows =>
    simp only [workerCreated, createdNat, hw]
    split <;> omega

theorem runWorkersTotal_eq (w : Nat → Option (List SegmentRow))
    (procs : List Recording) :
    runWorkersTotal w procs =
      (procs.map (fun r => (createdNat w r.id : Int))).sum :=
  sum_map_congr_mem procs _ _ (fun a _ => workerContribution w a.id)

theorem toProcess_false (recs : List Recording) (lang : Option String)
    (store : List SegmentRow) :
    toProcess recs lang store false =
      (candidates recs lang).filter (fun r => segCount store r.id == 0) := by
  simp [toProcess]

theorem skippedTotal_false (recs : List Recording) (lang : Option String)
    (store : List SegmentRow) :
    skippedTotal recs lang store false =
      (((candidates recs lang).filter (fun r => !(segCount store r.id == 0))).map
        (fun r => (segCount store r.id : Int))).sum := by
  simp [skippedTotal, skippedRecs]

theorem segmentAll_fst_eq (recs : List Recording) (lang : Option String)
    (store : List SegmentRow) (w : Nat → Option (List SegmentRow))
    (n2 : Recording → Nat)
    (hpt : ∀ r ∈ candidates recs lang,
      n2 r = if segCount store r.id = 0 then createdNat w r.id
        else segCount store r.id) :
    skippedTotal recs lang store false +
      runWorkersTotal w (toProcess recs lang store false) =
      ((candidates recs lang).map (fun r => (n2 r : Int))).sum := by
  rw [runWorkersTotal_eq, toProcess_false, skippedTotal_false, add_comm]
  rw [← sum_map_ite_split (candidates recs lang)
    (fun r => segCount store r.id == 0)
    (fun r => (createdNat w r.id : Int))
    (fun r => (segCount store r.id : Int))]
  apply sum_map_congr_mem
  intro a ha
  by_cases h0 : segCount store a.id = 0
  · simp only [h0, beq_self_eq_true, if_true]
    rw [hpt a ha, if_pos h0]
  · have hb : (segCount store a.id == 0) = false := by simp [h0]
    rw [hpt a ha, if_neg h0, hb]
    simp

/-- Claim C6: running `segment_all` without `force`, a recording that
already has at least one persisted segment is never dispatched to a worker
(no detector runs for it) and its segment rows are untouched; the returned
total is the sum of the pre-existing counts of the skipped recordings plus
the sum of the newly created counts of the processed ones; and a second run
without `force` over the resulting store returns the same total while
creating nothing new. -/
theorem claim_C6_resume_without_force
    (recs : List Recording) (lang : Option String) (store : List SegmentRow)
    (w : Nat → Option (List SegmentRow))
    (hW : ∀ rid rows, w rid = some rows → ∀ row ∈ rows, row.recording_id = rid)
    (hN : (recs.map (fun r => r.id)).Nodup) :
    (∀ r ∈ candidates recs lang, 1 ≤ segCount store r.id →
      r ∉ toProcess recs lang store false ∧
      (segmentAll recs lang store false w).2.filter
          (fun t => t.recording_id == r.id) =
        store.filter (fun t => t.recording_id == r.id)) ∧
    (segmentAll recs lang store false w).1 =
      skippedTotal recs lang store false +
        runWorkersTotal w (toProcess recs lang store false) ∧
    (segmentAll recs lang (segmentAll recs lang store false w).2 false w).1 =
      (segmentAll recs lang store false w).1 ∧
    runWorkersTotal w (toProcess recs lang (segmentAll recs lang store false w).2 false) = 0 := by
  have hinj : ∀ a ∈ recs, ∀ b ∈ recs, a.id = b.id → a = b := fun a ha b hb =>
    List.inj_on_of_nodup_map hN ha hb
  have hCsub : ∀ r ∈ candidates recs lang, r ∈ recs := fun r hr =>
    (List.mem_filter.mp hr).1
  have hPdef : toProcess recs lang store false =
      (candidates recs lang).filter (fun r => segCount store r.id == 0) := by
    simp [toProcess]
  have hCnd : ((candidates recs lang).map (fun r => r.id)).Nodup :=
    ((List.filter_sublist recs).map (fun r => r.id)).nodup hN
  have hPnd : ((toProcess recs lang store false).map (fun r => r.id)).Nodup := by
    rw [hPdef]
    exact ((List.filter_sublist (candidates recs lang)).map (fun r => r.id)).nodup hCnd
  have hPsubC : ∀ r ∈ toProcess recs lang store false,
      r ∈ candidates recs lang ∧ segCount store r.id = 0 := by
    intro r hr
    rw [hPdef] at hr
    have h := List.mem_filter.mp hr
    exact ⟨h.1, by simpa using h.2⟩
  have hPne : ∀ r ∈ candidates recs lang, segCount store r.id ≠ 0 →
      ∀ p ∈ toProcess recs lang store false, p.id ≠ r.id := by
    intro r hr hcount p hp heq
    obtain ⟨hpC, hp0⟩ := hPsubC p hp
    have hpr : p = r := hinj p (hCsub p hpC) r (hCsub r hr) heq
    rw [hpr] at hp0
    exact hcount hp0
  have hF1 : ∀ r ∈ candidates recs lang,
      segCount (runWorkersStore w (toProcess recs lang store false) store) r.id =
        (if segCount store r.id = 0 then createdNat w r.id
         else segCount store r.id) := by
    intro r hr
    by_cases h0 : segCount store r.id = 0
    · rw [if_pos h0]
      have hrP : r ∈ toProcess recs lang store false := by
        rw [hPdef]
        exact List.mem_filter.mpr ⟨hr, by simp [h0]⟩
      have hmem : r.id ∈ (toProcess recs lang store false).map (fun r => r.id) :=
        List.mem_map_of_mem (fun r => r.id) hrP
      have hfm := runWorkersStore_filter_mem w hW
        (toProcess recs lang store false) store r.id hmem hPnd
      show ((runWorkersStore w (toProcess recs lang store false) store).filter
        (fun t => t.recording_id == r.id)).length = _
      rw [hfm]
      cases hw : w r.id with
      | none => simpa [workerRowsOr, createdNat, hw, segCount] using h0
      | some rows =>
        cases rows with
        | nil => simpa [workerRowsOr, createdNat, hw, segCount] using h0
        | cons a rs => simp [workerRowsOr, createdNat, hw]
    · rw [if_neg h0]
      show ((runWorkersStore w (toProcess recs lang store false) store).filter
        (fun t => t.recording_id == r.id)).length = _
      rw [runWorkersStore_filter_ne w hW _ store r.id (hPne r hr h0)]
      rfl
  have hcreated0 : ∀ a ∈ candidates recs lang,
      segCount (runWorkersStore w (toProcess recs lang store false) store) a.id = 0 →
      createdNat w a.id = 0 := by
    intro a ha h2
    have hf := hF1 a ha
    rw [h2] at hf
    by_cases h0 : segCount store a.id = 0
    · rw [if_pos h0] at hf
      omega
    · rw [if_neg h0] at hf
      omega
  refine ⟨?_, rfl, ?_, ?_⟩
  · intro r hr h1
    constructor
    · intro hmem
      obtain ⟨_, h0⟩ := hPsubC r hmem
      omega
    · exact runWorkersStore_filter_ne w hW _ store r.id (hPne r hr (by omega))
  · show skippedTotal recs lang
        (runWorkersStore w (toProcess recs lang store false) store) false +
      runWorkersTotal w (toProcess recs lang
        (runWorkersStore w (toProcess recs lang store false) store) false) =
      skippedTotal recs lang store false +
        runWorkersTotal w (toProcess recs lang store false)
    have htot1 := segmentAll_fst_eq recs lang store w
      (fun r => segCount (runWorkersStore w (toProcess recs lang store false) store) r.id)
      hF1
    have hpt2 : ∀ r ∈ candidates recs lang,
        segCount (runWorkersStore w (toProcess recs lang store false) store) r.id =
          if segCount (runWorkersStore w (toProcess recs lang store false) store) r.id
              = 0 then createdNat w r.id
            else segCount (runWorkersStore w (toProcess recs lang store false) store)
              r.id := by
      intro r hr
      by_cases h2 : segCount (runWorkersStore w (toProcess recs lang store false) store)
          r.id = 0
      · rw [if_pos h2, h2, hcreated0 r hr h2]
      · rw [if_neg h2]
    have htot2 := segmentAll_fst_eq recs lang
      (runWorkersStore w (toProcess recs lang store false) store) w
      (fun r => segCount (runWorkersStore w (toProcess recs lang store false) store) r.id)
      hpt2
    rw [htot2, htot1]
  · show runWorkersTotal w (toProcess recs lang
      (runWorkersStore w (toProcess recs lang store false) store) false) = 0
    rw [runWorkersTotal_eq, toProcess_false]
    have hzero : ∀ a ∈ (candidates recs lang).filter (fun r =>
        segCount (runWorkersStore w (toProcess recs lang store false) store) r.id
          == 0), (createdNat w a.id : Int) = 0 := by
      intro a ha
      have hmf := List.mem_filter.mp ha
      have h2 : segCount (runWorkersStore w (toProcess recs lang store false) store)
          a.id = 0 := by simpa using hmf.2
      have := hcreated0 a hmf.1 h2
      simp [this]
    rw [sum_map_congr_mem _ _ (fun _ => 0) hzero]
    simp

theorem claim_C6_witness :
    (∀ r ∈ candidates
        [⟨1, "word-list", true, "EN"⟩, ⟨2, "word-list", true, "EN"⟩] none,
      1 ≤ segCount [⟨9, 1, "old", 0, 1⟩] r.id →
      r ∉ toProcess [⟨1, "word-list", true, "EN"⟩, ⟨2, "word-list", true, "EN"⟩]
          none [⟨9, 1, "old", 0, 1⟩] false ∧
      (segmentAll [⟨1, "word-list", true, "EN"⟩, ⟨2, "word-list", true, "EN"⟩]
          none [⟨9, 1, "old", 0, 1⟩] false
          (fun rid => some [⟨5, rid, "new", 0, 1⟩])).2.filter
          (fun t => t.recording_id == r.id) =
        [⟨9, 1, "old", 0, 1⟩].filter (fun t => t.recording_id == r.id)) ∧
    (segmentAll [⟨1, "word-list", true, "EN"⟩, ⟨2, "word-list", true, "EN"⟩]
        none [⟨9, 1, "old", 0, 1⟩] false
        (fun rid => some [⟨5, rid, "new", 0, 1⟩])).1 =
      skippedTotal [⟨1, "word-list", true, "EN"⟩, ⟨2, "word-list", true, "EN"⟩]
          none [⟨9, 1, "old", 0, 1⟩] false +
        runWorkersTotal (fun rid => some [⟨5, rid, "new", 0, 1⟩])
          (toProcess [⟨1, "word-list", true, "EN"⟩, ⟨2, "word-list", true, "EN"⟩]
            none [⟨9, 1, "old", 0, 1⟩] false) ∧
    (segmentAll [⟨1, "word-list", true, "EN"⟩, ⟨2, "word-list", true, "EN"⟩] none
        (segmentAll [⟨1, "word-list", true, "EN"⟩, ⟨2, "word-list", true, "EN"⟩]
          none [⟨9, 1, "old", 0, 1⟩] false
          (fun rid => some [⟨5, rid, "new", 0, 1⟩])).2 false
        (fun rid => some [⟨5, rid, "new", 0, 1⟩])).1 =
      (segmentAll [⟨1, "word-list", true, "EN"⟩, ⟨2, "word-list", true, "EN"⟩]
          none [⟨9, 1, "old", 0, 1⟩] false
          (fun rid => some [⟨5, rid, "new", 0, 1⟩])).1 ∧
    runWorkersTotal (fun rid => some [⟨5, rid, "new", 0, 1⟩])
      (toProcess [⟨1, "word-list", true, "EN"⟩, ⟨2, "word-list", true, "EN"⟩] none
        (segmentAll [⟨1, "word-list", true, "EN"⟩, ⟨2, "word-list", true, "EN"⟩]
          none [⟨9, 1, "old", 0, 1⟩] false
          (fun rid => some [⟨5, rid, "new", 0, 1⟩])).2 false) = 0 := by
  exact claim_C6_resume_without_force
    [⟨1, "word-list", true, "EN"⟩, ⟨2, "word-list", true, "EN"⟩] none
    [⟨9, 1, "old", 0, 1⟩] (fun rid => some [⟨5, rid, "new", 0, 1⟩])
    (by intro rid rows hrows row hrow
        simp only [Option.some_inj] at hrows
        rw [← hrows] at hrow
        simp only [List.mem_singleton] at hrow
        rw [hrow])
    (by decide)

end Seg
